import Mathlib

/-!
Verification of `repeat_kmer.h` (HISAT2 repeat k-mer minimizer index).

Sequences are modelled as lists of symbol codes (`List Nat`); nucleotide codes
`0..3` are used directly and larger codes are sent through the translation
table, exactly as the source does.  `uint64_t` k-mer codes are modelled as
`Nat`: with `k ≤ 32` every intermediate value stays below `2 ^ 64`, so none of
the source operations wrap and the model is exact.  Components that live
outside the verified sources (`EList`, `std::set`, `word_io.h`, `TIndexOffU`,
`asc2dna`) are modelled from the specification and marked as such.
-/

namespace RepeatKmer

/-- Modelled from the spec: the external symbol-translation table `asc2dna`
(defined outside the sources under verification) maps non-canonical symbol
codes (`> 3`) into `{0, 1, 2, 3}`. -/
def asc2dna (c : Nat) : Nat := c % 4

/-- The translation idiom `if (c > 3) c = asc2dna[c];` shared by
`get_kmer` and `get_next_kmer`. -/
def dnaVal (c : Nat) : Nat := if 3 < c then asc2dna c else c

namespace RB_Minimizer

/-- `RB_Minimizer::get_kmer`: pack `seq[offset .. offset+k-1]` into a
2-bit-per-base code via `kmer = (kmer << 2 | c)`. -/
def get_kmer (seq : List Nat) (offset k : Nat) : Nat :=
  (List.range k).foldl
    (fun kmer i => (kmer <<< 2) ||| dnaVal (seq.getD (offset + i) 0)) 0

/-- `RB_Minimizer::get_next_kmer`: mask to the low `2(k-1)` bits
(`kmer &= ((uint64_t)1 << ((k-1)*2)) - 1`), shift left two bits and insert
the translated new base. -/
def get_next_kmer (kmer base k : Nat) : Nat :=
  ((kmer &&& ((1 <<< ((k - 1) * 2)) - 1)) <<< 2) ||| dnaVal base

/-- `RB_Minimizer::minimizer_leq`: plain `<=` on codes. -/
def minimizer_leq (kmer kmer2 : Nat) : Bool := decide (kmer ≤ kmer2)

/-- One comparison step of the minimizer scan:
`if (minimizer_leq(next_kmer, minimizer.first)) minimizer = (next_kmer, i);`. -/
def minStep (m c : Nat × Nat) : Nat × Nat :=
  if minimizer_leq c.1 m.1 then c else m

/-- Folding `minStep` over a candidate list. -/
def minList (l : List (Nat × Nat)) (m : Nat × Nat) : Nat × Nat :=
  l.foldl minStep m

/-- The `(code, position)` candidates of positions `[a, a + n)`. -/
def cands (seq : List Nat) (a n k : Nat) : List (Nat × Nat) :=
  (List.range' a n).map (fun p => (get_kmer seq p k, p))

/-- Loop body of the single-window `get_minimizer`: the state is the current
`(minimizer, kmer)` and `j` counts loop iterations (`i = off + 1 + j`). -/
def gmStep (seq : List Nat) (off k : Nat) (st : (Nat × Nat) × Nat) (j : Nat) :
    (Nat × Nat) × Nat :=
  let i := off + 1 + j
  let next_kmer := get_next_kmer st.2 (seq.getD (i + k - 1) 0) k
  (if minimizer_leq next_kmer st.1.1 then (next_kmer, i) else st.1, next_kmer)

/-- `RB_Minimizer::get_minimizer(seq, off, window, k)` (single window):
start from the k-mer at `off`, roll through the remaining `window - 1`
positions keeping the running minimum (ties replaced). -/
def get_minimizer (seq : List Nat) (off window k : Nat) : Nat × Nat :=
  ((List.range (window - 1)).foldl (gmStep seq off k)
    ((get_kmer seq off k, off), get_kmer seq off k)).1

/-- Loop body of the streaming `get_minimizer` (result-list overload): state is
`(minimizers, minimizer, kmer)`, iteration counter `j` (`i = j + 1`).
Mirrors: roll the k-mer; if the retained minimizer fell out of the window,
recompute from scratch; otherwise compare the entering k-mer; push. -/
def gmlStep (seq : List Nat) (window k : Nat)
    (st : List (Nat × Nat) × (Nat × Nat) × Nat) (j : Nat) :
    List (Nat × Nat) × (Nat × Nat) × Nat :=
  let i := j + 1
  let next_kmer := get_next_kmer st.2.2 (seq.getD (i + window + k - 2) 0) k
  let minimizer :=
    if st.2.1.2 < i then get_minimizer seq i window k
    else if minimizer_leq next_kmer st.2.1.1 then (next_kmer, i + window - 1)
    else st.2.1
  (st.1 ++ [minimizer], minimizer, next_kmer)

/-- `RB_Minimizer::get_minimizer(seq, window, k, minimizers)` (streaming):
clears the result list, seeds it with window 0, then iterates while
`i + window + k - 1 <= seq.length()`, i.e. `seq.length + 1 - (window + k)`
times. Returns the filled result list. -/
def get_minimizer_list (seq : List Nat) (window k : Nat) : List (Nat × Nat) :=
  ((List.range (seq.length + 1 - (window + k))).foldl (gmlStep seq window k)
    ([get_minimizer seq 0 window k], get_minimizer seq 0 window k,
      get_kmer seq (window - 1) k)).1

end RB_Minimizer

/-- Lexicographic `operator<` of `std::pair<uint64_t, size_t>`. -/
def pairLt (a b : Nat × Nat) : Prop := a.1 < b.1 ∨ (a.1 = b.1 ∧ a.2 < b.2)

/-- Lexicographic `operator<=` on pairs: the ascending order used by the
sorted entry table. -/
def pairLe (a b : Nat × Nat) : Prop := a.1 < b.1 ∨ (a.1 = b.1 ∧ a.2 ≤ b.2)

instance : DecidableRel pairLt := fun a b => by
  unfold pairLt
  infer_instance

instance : DecidableRel pairLe := fun a b => by
  unfold pairLe
  infer_instance

instance : IsTotal (Nat × Nat) pairLe where
  total a b := by
    unfold pairLe
    omega

instance : IsTrans (Nat × Nat) pairLe where
  trans a b c hab hbc := by
    unfold pairLe at *
    omega

instance : IsAntisymm (Nat × Nat) pairLe where
  antisymm a b hab hba := by
    unfold pairLe at *
    have h1 : a.1 = b.1 ∧ a.2 = b.2 := by omega
    exact Prod.ext h1.1 h1.2

instance : IsTrans (Nat × Nat) pairLt where
  trans a b c hab hbc := by
    unfold pairLt at *
    omega

/-- Modelled from the spec: a `std::set<uint64_t>` is its ascending list of
distinct elements; `insert` places a new element at its ordered position. -/
def setInsert : List Nat → Nat → List Nat
  | [], x => [x]
  | y :: l, x =>
    if x < y then x :: y :: l
    else if x = y then y :: l
    else y :: setInsert l x

/-- Adjacent-duplicate removal relative to the last kept element `a`: the
shape computed by the duplicate-suppression passes of `build` and
`findRepeats`. -/
def dedupFrom {α : Type} [DecidableEq α] (a : α) : List α → List α
  | [] => []
  | e :: l => if a = e then dedupFrom a l else e :: dedupFrom e l

/-- `RB_KmerTable` state: window `w_`, k-mer length `k_`, the sorted
`(code, sourceId)` entry table (`EList<pair<uint64_t, size_t>>`) and the
distinct-code set (`std::set<uint64_t>`, as an ascending list). -/
structure RB_KmerTable where
  w_ : Nat
  k_ : Nat
  kmer_table_ : List (Nat × Nat)
  kmers_ : List Nat
deriving DecidableEq

/-- The `RB_KmerTable()` default constructor: `w_ = k_ = 0`, empty
containers. -/
def RB_KmerTable.mk0 : RB_KmerTable := ⟨0, 0, [], []⟩

namespace RB_KmerTable

/-- `RB_KmerTable::isIn`: membership in the distinct-code set. -/
def isIn (t : RB_KmerTable) (kmer : Nat) : Bool :=
  t.kmers_.contains kmer

/-- Loop body of `isRepeat`: the state is
`(est_count, prev_minimizer, prev_in)`, initialised to `(0, 0, false)`. -/
def irStep (t : RB_KmerTable) (st : Nat × Nat × Bool) (m : Nat × Nat) :
    Nat × Nat × Bool :=
  if m.1 == st.2.1 then
    (if st.2.2 then st.1 + 1 else st.1, m.1, st.2.2)
  else if t.isIn m.1 then (st.1 + 1, m.1, true)
  else (st.1, m.1, false)

/-- `RB_KmerTable::isRepeat(query, minimizers)`: majority vote of set
membership over the minimizer stream, reusing the previous verdict on equal
adjacent codes; `est_count * 2 >= minimizers.size()`. -/
def isRepeat (t : RB_KmerTable) (query : List Nat) : Bool :=
  let minimizers := RB_Minimizer.get_minimizer_list query t.w_ t.k_
  let st := minimizers.foldl (irStep t) (0, 0, false)
  decide (st.1 * 2 ≥ minimizers.length)

/-- Modelled from the spec: `TIndexOffU` (defined outside the sources under
verification) is a fixed-width unsigned integer; the default 32-bit build is
modelled, so stored ids reduce mod `2 ^ 32` and
`std::numeric_limits<TIndexOffU>::max()` is `2 ^ 32 - 1`. -/
def OFF_MAX : Nat := 2 ^ 32 - 1

/-- Modelled from the spec: `EList::bsearchLoBound` (defined outside the
sources under verification) returns the index of the first entry that is not
below the probe in the table's lexicographic order. -/
def bsearchLoBound (l : List (Nat × Nat)) (p : Nat × Nat) : Nat :=
  l.findIdx (fun e => !decide (pairLt e p))

/-- Inner collection loop of `findRepeats`: from the lower bound of
`(code, 0)`, push `sourceId`s while entries match `code`. -/
def collectFor (tab : List (Nat × Nat)) (code : Nat) : List Nat :=
  ((tab.drop (bsearchLoBound tab (code, 0))).takeWhile
    (fun e => code == e.1)).map (fun e => e.2 % 2 ^ 32)

/-- Outer scan of `findRepeats` after the first minimizer: skip a minimizer
whose code equals the immediately preceding one (`prev`). -/
def collectAux (tab : List (Nat × Nat)) (prev : Nat) :
    List (Nat × Nat) → List Nat
  | [] => []
  | m :: ms =>
    if m.1 == prev then collectAux tab prev ms
    else collectFor tab m.1 ++ collectAux tab m.1 ms

/-- The complete id-collection scan of `findRepeats` over the minimizer
stream. -/
def collectPhase (tab : List (Nat × Nat)) :
    List (Nat × Nat) → List Nat
  | [] => []
  | m :: ms => collectFor tab m.1 ++ collectAux tab m.1 ms

/-- The sentinel-marking pass of `findRepeats`: within each run of elements
equal to the current run leader `x`, every element after the leader is
overwritten with the maximal id value and counted (`remove_count`). -/
def markAux (x : Nat) : List Nat → List Nat × Nat
  | [] => ([], 0)
  | y :: l =>
    if y = x then
      ((markAux x l).1.cons OFF_MAX, (markAux x l).2 + 1)
    else
      ((markAux y l).1.cons y, (markAux y l).2)

/-- The sentinel-marking pass started at the list head (the first run
leader). -/
def markDups : List Nat → List Nat × Nat
  | [] => ([], 0)
  | x :: l => ((markAux x l).1.cons x, (markAux x l).2)

/-- The deduplication tail of `findRepeats` (source lines 198-215): return
early when nothing was collected, else sort ascending, sentinel-mark all but
the first element of every duplicate run, re-sort (sentinels trail, being the
maximal value), and truncate the final `remove_count` entries.  `EList::sort`
(outside the sources) is modelled from the spec as sorting ascending
(`List.insertionSort`). -/
def dedupIds (repeats : List Nat) : List Nat :=
  if repeats.isEmpty then repeats
  else
    let marked := markDups (List.insertionSort (· ≤ ·) repeats)
    let sorted2 := List.insertionSort (· ≤ ·) marked.1
    sorted2.take (sorted2.length - marked.2)

/-- `RB_KmerTable::findRepeats(query, minimizers, repeats)`: collect the ids
of every entry sharing a code with the minimizer stream (skipping adjacent
equal codes), then deduplicate via the sentinel passes. -/
def findRepeats (t : RB_KmerTable) (query : List Nat) : List Nat :=
  let minimizers := RB_Minimizer.get_minimizer_list query t.w_ t.k_
  dedupIds (collectPhase t.kmer_table_ minimizers)

/-- Inner loop body of `build` for source id `s`: state
`(kmer_table_, kmers_)`; skip a minimizer when the table's back entry is
already `(code, s)`, else append it and insert its code into the set. -/
def buildStep (s : Nat) (st : List (Nat × Nat) × List Nat) (m : Nat × Nat) :
    List (Nat × Nat) × List Nat :=
  if st.1.getLast? = some (m.1, s) then st
  else (st.1 ++ [(m.1, s)], setInsert st.2 m.1)

/-- The post-sort consecutive-duplicate removal pass of `build`
(`tmp_table`). -/
def dedup_pass (l : List (Nat × Nat)) : List (Nat × Nat) :=
  l.foldl (fun tmp e => if tmp.getLast? = some e then tmp else tmp ++ [e]) []

/-- `RB_KmerTable::build(seqs, w, k)`: per sequence, stream the minimizers
and append `(code, sourceId)` entries (suppressing an entry equal to the
table's back); then sort the table and drop consecutive duplicates.
`EList::sort` (outside the sources) is modelled from the spec as sorting
ascending by the pair order (`List.insertionSort pairLe`). -/
def build (seqs : List (List Nat)) (w k : Nat) : RB_KmerTable :=
  let st := seqs.enum.foldl
    (fun st p =>
      (RB_Minimizer.get_minimizer_list p.2 w k).foldl (buildStep p.1) st)
    ([], [])
  { w_ := w, k_ := k,
    kmer_table_ := dedup_pass (List.insertionSort pairLe st.1),
    kmers_ := st.2 }

/-- `RB_KmerTable::write`: emit `kmers_.size(), w_, k_`, then every distinct
code in set-iteration (ascending) order.  The byte-level
`writeIndex`/`readIndex` pair (`word_io.h`, outside the sources) is modelled
from the spec at word granularity: with a matching endianness a written word
reads back identically, so a stream is the list of written words and the
`bigEndian` flag does not change the model. -/
def write (t : RB_KmerTable) (bigEndian : Bool) : List Nat :=
  t.kmers_.length :: t.w_ :: t.k_ :: t.kmers_

/-- The `while (kmers_.size() < kmer_size)` loop of `read`: insert one word
per iteration while the set is smaller than `kmer_size`; running out of words
with the set still short is the corrupt-stream failure (`none`). -/
def readKmers (target : Nat) : List Nat → List Nat → Option (List Nat)
  | [], ks => if ks.length < target then none else some ks
  | x :: rest, ks =>
    if ks.length < target then readKmers target rest (setInsert ks x)
    else some ks

/-- `RB_KmerTable::read`: read `kmer_size, w_, k_`, then insert codes until
the set reaches `kmer_size` elements.  The entry table is not touched. -/
def read (t : RB_KmerTable) (stream : List Nat) (bigEndian : Bool) :
    Option RB_KmerTable :=
  match stream with
  | kmer_size :: w :: k :: rest =>
    (readKmers kmer_size rest t.kmers_).map
      (fun ks => { t with w_ := w, k_ := k, kmers_ := ks })
  | _ => none

end RB_KmerTable

/-- A query's mutable environment: the index plus the caller-supplied scratch
buffers (`minimizers`, `repeats`).  The query methods are `const` on the
index, so only the buffers can be written. -/
structure QueryState where
  table : RB_KmerTable
  minimizers : List (Nat × Nat)
  repeats : List Nat
deriving DecidableEq

/-- `isRepeat` with the caller's scratch buffer made explicit: the streaming
`get_minimizer` begins with `minimizers.clear()`, so the incoming buffer
contents are discarded and the buffer ends up holding the fresh stream. -/
def isRepeatS (s : QueryState) (query : List Nat) : Bool × QueryState :=
  (s.table.isRepeat query,
   { s with
      minimizers :=
        RB_Minimizer.get_minimizer_list query s.table.w_ s.table.k_ })

/-- `findRepeats` with both caller buffers explicit: `repeats.clear()` runs
first and the minimizer buffer is cleared inside the streaming extractor, so
both incoming buffer contents are discarded. -/
def findRepeatsS (s : QueryState) (query : List Nat) : QueryState :=
  { s with
    minimizers := RB_Minimizer.get_minimizer_list query s.table.w_ s.table.k_,
    repeats := s.table.findRepeats query }

namespace RB_Minimizer

theorem dnaVal_lt_four (c : Nat) : dnaVal c < 4 := by
  unfold dnaVal asc2dna
  split <;> omega

/-- `(a << 2) | c` is `4 * a + c` whenever `c` fits in two bits. -/
theorem shiftLeft_two_or (a c : Nat) (h : c < 4) :
    (a <<< 2) ||| c = 4 * a + c := by
  have h2 : c < 2 ^ 2 := h
  rw [Nat.shiftLeft_eq, Nat.mul_comm, ← Nat.mul_add_lt_is_or h2 a]

theorem get_kmer_zero (seq : List Nat) (off : Nat) : get_kmer seq off 0 = 0 := rfl

theorem get_kmer_succ (seq : List Nat) (off k : Nat) :
    get_kmer seq off (k + 1) =
      (get_kmer seq off k <<< 2) ||| dnaVal (seq.getD (off + k) 0) := by
  unfold get_kmer
  rw [List.range_succ, List.foldl_append]
  rfl

theorem get_kmer_succ_arith (seq : List Nat) (off k : Nat) :
    get_kmer seq off (k + 1) =
      4 * get_kmer seq off k + dnaVal (seq.getD (off + k) 0) := by
  rw [get_kmer_succ, shiftLeft_two_or _ _ (dnaVal_lt_four _)]

/-- Every packed code lies below `4 ^ k`. -/
theorem get_kmer_lt (seq : List Nat) (off k : Nat) :
    get_kmer seq off k < 4 ^ k := by
  induction k with
  | zero => simp [get_kmer_zero]
  | succ k ih =>
    rw [get_kmer_succ_arith]
    have := dnaVal_lt_four (seq.getD (off + k) 0)
    have : 4 ^ (k + 1) = 4 * 4 ^ k := by ring
    omega

/-- Peeling the first base off a packed code. -/
theorem get_kmer_cons (seq : List Nat) (off k : Nat) :
    get_kmer seq off (k + 1) =
      dnaVal (seq.getD off 0) * 4 ^ k + get_kmer seq (off + 1) k := by
  induction k with
  | zero => simp [get_kmer_succ_arith, get_kmer_zero]
  | succ k ih =>
    rw [get_kmer_succ_arith, ih, get_kmer_succ_arith]
    have : off + 1 + k = off + (k + 1) := by omega
    rw [this]
    ring

/-- The rolling update agrees with re-encoding the shifted window:
`get_next_kmer (get_kmer seq off k) seq[off+k] k = get_kmer seq (off+1) k`. -/
theorem get_next_kmer_roll (seq : List Nat) (off k : Nat) (hk : 1 ≤ k) :
    get_next_kmer (get_kmer seq off k) (seq.getD (off + k) 0) k =
      get_kmer seq (off + 1) k := by
  obtain ⟨k', rfl⟩ : ∃ k', k = k' + 1 := ⟨k - 1, by omega⟩
  unfold get_next_kmer
  have hmask : (1 : Nat) <<< ((k' + 1 - 1) * 2) - 1 = 2 ^ (k' * 2) - 1 := by
    rw [Nat.one_shiftLeft, Nat.add_sub_cancel]
  rw [hmask, Nat.and_pow_two_sub_one_eq_mod]
  have hpow : (2 : Nat) ^ (k' * 2) = 4 ^ k' := by
    rw [show (4 : Nat) = 2 ^ 2 from rfl, ← pow_mul, Nat.mul_comm]
  have hm : (dnaVal (seq.getD off 0) * 4 ^ k' + get_kmer seq (off + 1) k') % 4 ^ k'
      = get_kmer seq (off + 1) k' := by
    rw [Nat.add_comm, Nat.add_mul_mod_self_right,
      Nat.mod_eq_of_lt (get_kmer_lt seq (off + 1) k')]
  rw [hpow, get_kmer_cons, hm, shiftLeft_two_or _ _ (dnaVal_lt_four _)]
  have hidx : off + (k' + 1) = off + 1 + k' := by omega
  rw [hidx, ← get_kmer_succ_arith]

theorem minStep_eq (m c : Nat × Nat) :
    minStep m c = if c.1 ≤ m.1 then c else m := by
  simp only [minStep, minimizer_leq, decide_eq_true_eq]

theorem minList_cons (c : Nat × Nat) (l : List (Nat × Nat)) (m : Nat × Nat) :
    minList (c :: l) m = minList l (minStep m c) := rfl

theorem minList_append (l₁ l₂ : List (Nat × Nat)) (m : Nat × Nat) :
    minList (l₁ ++ l₂) m = minList l₂ (minList l₁ m) := by
  unfold minList
  exact List.foldl_append _ _ _ _

/-- The scan result is either the initial pair or one of the candidates. -/
theorem minList_mem (l : List (Nat × Nat)) (m : Nat × Nat) :
    minList l m = m ∨ minList l m ∈ l := by
  induction l generalizing m with
  | nil => left; rfl
  | cons c l ih =>
    rw [minList_cons]
    rcases ih (minStep m c) with h | h
    · rw [h, minStep_eq]
      by_cases hc : c.1 ≤ m.1
      · rw [if_pos hc]
        right
        exact List.mem_cons_self _ _
      · rw [if_neg hc]
        left
        rfl
    · right
      exact List.mem_cons_of_mem _ h

/-- Starting the scan from a strictly smaller initial code either gives the
same result, or the initial pair wins outright. -/
theorem minList_indep (l : List (Nat × Nat)) (x y : Nat × Nat) (h : x.1 < y.1) :
    minList l x = minList l y ∨ minList l x = x := by
  induction l generalizing x y with
  | nil => right; rfl
  | cons c l ih =>
    rw [minList_cons c l x, minList_cons c l y, minStep_eq x c, minStep_eq y c]
    by_cases h1 : c.1 ≤ x.1
    · have h2 : c.1 ≤ y.1 := by omega
      rw [if_pos h1, if_pos h2]
      left; rfl
    · rw [if_neg h1]
      by_cases h2 : c.1 ≤ y.1
      · rw [if_pos h2]
        exact ih x c (by omega)
      · rw [if_neg h2]
        exact ih x y h

/-- One `gmStep` on a state whose kmer slot holds the code at `off + n`
performs a `minStep` against the freshly rolled code at `off + n + 1`. -/
theorem gmStep_eq (seq : List Nat) (off k : Nat) (hk : 1 ≤ k)
    (A : Nat × Nat) (n : Nat) :
    gmStep seq off k (A, get_kmer seq (off + n) k) n
      = (minStep A (get_kmer seq (off + n + 1) k, off + 1 + n),
         get_kmer seq (off + n + 1) k) := by
  have hroll : get_next_kmer (get_kmer seq (off + n) k)
      (seq.getD (off + 1 + n + k - 1) 0) k = get_kmer seq (off + n + 1) k := by
    have hidx : off + 1 + n + k - 1 = off + n + k := by omega
    rw [hidx, get_next_kmer_roll seq (off + n) k hk]
  simp only [gmStep, minStep, hroll]

/-- The single-window loop computes `minList` over the window's candidates. -/
theorem get_minimizer_fold (seq : List Nat) (off k : Nat) (hk : 1 ≤ k) (n : Nat) :
    (List.range n).foldl (gmStep seq off k)
      ((get_kmer seq off k, off), get_kmer seq off k)
    = (minList (cands seq (off + 1) n k) (get_kmer seq off k, off),
       get_kmer seq (off + n) k) := by
  induction n with
  | zero => simp [minList, cands]
  | succ n ih =>
    rw [List.range_succ, List.foldl_append, ih, List.foldl_cons, List.foldl_nil,
      gmStep_eq seq off k hk]
    have hc : cands seq (off + 1) (n + 1) k
        = cands seq (off + 1) n k
          ++ [(get_kmer seq (off + 1 + n) k, off + 1 + n)] := by
      unfold cands
      rw [List.range'_concat, List.map_append]
      simp
    rw [hc, minList_append]
    have h1 : off + 1 + n = off + n + 1 := by omega
    rw [h1]
    rfl

theorem get_minimizer_eq_minList (seq : List Nat) (off w k : Nat) (hk : 1 ≤ k) :
    get_minimizer seq off w k
      = minList (cands seq (off + 1) (w - 1) k) (get_kmer seq off k, off) := by
  unfold get_minimizer
  rw [get_minimizer_fold seq off k hk]

/-- The minimizer's position stays inside its window. -/
theorem get_minimizer_pos_lt (seq : List Nat) (off w k : Nat)
    (hk : 1 ≤ k) (hw : 1 ≤ w) :
    off ≤ (get_minimizer seq off w k).2 ∧
      (get_minimizer seq off w k).2 < off + w := by
  rw [get_minimizer_eq_minList seq off w k hk]
  rcases minList_mem (cands seq (off + 1) (w - 1) k) (get_kmer seq off k, off)
    with h | h
  · rw [h]
    dsimp only
    omega
  · unfold cands at h
    simp only [List.mem_map, List.mem_range'_1] at h
    obtain ⟨p, hp, heq⟩ := h
    unfold cands
    rw [← heq]
    dsimp only
    omega

/-- The minimizer's code is the packed code of some position (hence below
`4 ^ k`). -/
theorem get_minimizer_code_lt (seq : List Nat) (off w k : Nat) (hk : 1 ≤ k) :
    (get_minimizer seq off w k).1 < 4 ^ k := by
  rw [get_minimizer_eq_minList seq off w k hk]
  rcases minList_mem (cands seq (off + 1) (w - 1) k) (get_kmer seq off k, off)
    with h | h
  · rw [h]
    exact get_kmer_lt seq off k
  · unfold cands at h
    simp only [List.mem_map, List.mem_range'_1] at h
    obtain ⟨p, hp, heq⟩ := h
    unfold cands
    rw [← heq]
    exact get_kmer_lt seq p k

/-- Streaming update step: when the previous window's minimizer position is
still inside the new window, comparing only the entering k-mer suffices. -/
theorem stream_step (seq : List Nat) (k : Nat) (hk : 1 ≤ k) (j w : Nat)
    (hpos : j + 1 ≤ (get_minimizer seq j w k).2) :
    get_minimizer seq (j + 1) w k
      = minStep (get_minimizer seq j w k) (get_kmer seq (j + w) k, j + w) := by
  have hw2 : 2 ≤ w := by
    rcases Nat.lt_or_ge w 2 with h | h
    · exfalso
      have hw1 : w - 1 = 0 := by omega
      rw [get_minimizer_eq_minList seq j w k hk, hw1] at hpos
      have h0 : cands seq (j + 1) 0 k = [] := rfl
      rw [h0] at hpos
      have h1 : minList [] (get_kmer seq j k, j) = (get_kmer seq j k, j) := rfl
      rw [h1] at hpos
      dsimp only at hpos
      omega
    · exact h
  obtain ⟨w', rfl⟩ : ∃ w', w = w' + 2 := ⟨w - 2, by omega⟩
  have hcons : cands seq (j + 1) (w' + 2 - 1) k
      = (get_kmer seq (j + 1) k, j + 1) :: cands seq (j + 2) w' k := by
    unfold cands
    rw [show w' + 2 - 1 = w' + 1 from rfl, List.range'_succ, List.map_cons]
  have hconcat : cands seq (j + 1 + 1) (w' + 2 - 1) k
      = cands seq (j + 2) w' k
        ++ [(get_kmer seq (j + (w' + 2)) k, j + (w' + 2))] := by
    unfold cands
    rw [show w' + 2 - 1 = w' + 1 from rfl, List.range'_concat, List.map_append]
    have h2 : j + 1 + 1 + 1 * w' = j + (w' + 2) := by omega
    rw [h2]
    rfl
  rw [get_minimizer_eq_minList seq j (w' + 2) k hk, hcons] at hpos
  rw [get_minimizer_eq_minList seq (j + 1) (w' + 2) k hk, hconcat,
    get_minimizer_eq_minList seq j (w' + 2) k hk, hcons, minList_append]
  show minStep (minList (cands seq (j + 2) w' k) (get_kmer seq (j + 1) k, j + 1)) _
      = minStep _ _
  congr 1
  rw [minList_cons, minStep_eq]
  by_cases hc : get_kmer seq (j + 1) k ≤ get_kmer seq j k
  · rw [if_pos (by dsimp only; exact hc)]
  · rw [if_neg (by dsimp only; exact hc)]
    rcases minList_indep (cands seq (j + 2) w' k)
      (get_kmer seq j k, j) (get_kmer seq (j + 1) k, j + 1) (by dsimp only; omega)
      with h | h
    · exact h.symm
    · exfalso
      rw [minList_cons, minStep_eq,
        if_neg (by dsimp only; exact hc), h] at hpos
      dsimp only at hpos
      omega

/-- Invariant of the streaming loop: after `n` iterations the emitted list is
the brute-force minimizer of every window `0 .. n`, the retained minimizer is
window `n`'s, and the rolled k-mer sits at position `n + window - 1`. -/
theorem gml_invariant (seq : List Nat) (w k : Nat) (hk : 1 ≤ k) (hw : 1 ≤ w)
    (n : Nat) :
    (List.range n).foldl (gmlStep seq w k)
      ([get_minimizer seq 0 w k], get_minimizer seq 0 w k,
        get_kmer seq (w - 1) k)
    = ((List.range (n + 1)).map (fun i => get_minimizer seq i w k),
       get_minimizer seq n w k, get_kmer seq (n + w - 1) k) := by
  induction n with
  | zero =>
    rw [show List.range 1 = [0] from rfl,
      show (0 : Nat) + w - 1 = w - 1 from by omega]
    rfl
  | succ n ih =>
    rw [List.range_succ, List.foldl_append, ih, List.foldl_cons, List.foldl_nil]
    have hroll : get_next_kmer (get_kmer seq (n + w - 1) k)
        (seq.getD (n + 1 + w + k - 2) 0) k = get_kmer seq (n + w) k := by
      have hidx : n + 1 + w + k - 2 = (n + w - 1) + k := by omega
      have hsucc : n + w - 1 + 1 = n + w := by omega
      rw [hidx, get_next_kmer_roll seq (n + w - 1) k hk, hsucc]
    simp only [gmlStep, hroll]
    have hlist : (List.range (n + 1)).map (fun i => get_minimizer seq i w k)
          ++ [get_minimizer seq (n + 1) w k]
        = (List.range (n + 1 + 1)).map (fun i => get_minimizer seq i w k) := by
      rw [List.range_succ (n + 1), List.map_append]
      rfl
    have hkm : n + 1 + w - 1 = n + w := by omega
    by_cases hc : (get_minimizer seq n w k).2 < n + 1
    · rw [if_pos hc, hlist, hkm]
    · rw [if_neg hc]
      have hmin : (if minimizer_leq (get_kmer seq (n + w) k)
            (get_minimizer seq n w k).1
          then (get_kmer seq (n + w) k, n + 1 + w - 1)
          else get_minimizer seq n w k)
          = get_minimizer seq (n + 1) w k := by
        rw [stream_step seq k hk n w (by omega), minStep_eq]
        simp only [minimizer_leq, decide_eq_true_eq]
        have h1 : n + 1 + w - 1 = n + w := by omega
        rw [h1]
      rw [hmin, hlist, hkm]

/-- The streaming extractor equals the per-window brute force map. -/
theorem get_minimizer_list_eq (seq : List Nat) (w k : Nat)
    (hk : 1 ≤ k) (hw : 1 ≤ w) :
    get_minimizer_list seq w k
      = (List.range (seq.length + 1 - (w + k) + 1)).map
          (fun i => get_minimizer seq i w k) := by
  unfold get_minimizer_list
  rw [gml_invariant seq w k hk hw]

end RB_Minimizer

/-- C1: for every sequence `seq` of length `L`, window size `w` and k-mer
length `k` with `k ≤ 32` and `w + k − 1 ≤ L`, the streaming extractor
produces at every window index `i` the same `(code, position)` pair as the
single-window brute-force extractor `get_minimizer(seq, i, w, k)`.
(`1 ≤ w` and `1 ≤ k` are contract preconditions of the source: `w = 0` makes
the streaming code take `get_kmer` at offset `(size_t)-1`, and `k = 0` shifts
by `(size_t)(-1)*2` inside `get_next_kmer`.) -/
theorem streaming_matches_bruteforce (seq : List Nat) (w k i : Nat)
    (hw : 1 ≤ w) (hk : 1 ≤ k) (hk32 : k ≤ 32)
    (hL : w + k - 1 ≤ seq.length) (hi : i + (w + k - 1) ≤ seq.length) :
    (RB_Minimizer.get_minimizer_list seq w k).getD i (0, 0)
      = RB_Minimizer.get_minimizer seq i w k := by
  rw [RB_Minimizer.get_minimizer_list_eq seq w k hk hw]
  have hlen : i < ((List.range (seq.length + 1 - (w + k) + 1)).map
      (fun i => RB_Minimizer.get_minimizer seq i w k)).length := by
    rw [List.length_map, List.length_range]
    omega
  rw [List.getD_eq_getElem _ _ hlen, List.getElem_map, List.getElem_range]

theorem streaming_matches_bruteforce_witness :
    1 ≤ 2 ∧ 1 ≤ 3 ∧ 3 ≤ 32
      ∧ 2 + 3 - 1 ≤ List.length [0, 1, 2, 3, 0, 1, 2, 3]
      ∧ 1 + (2 + 3 - 1) ≤ List.length [0, 1, 2, 3, 0, 1, 2, 3]
      ∧ (RB_Minimizer.get_minimizer_list [0, 1, 2, 3, 0, 1, 2, 3] 2 3).getD 1 (0, 0)
          = RB_Minimizer.get_minimizer [0, 1, 2, 3, 0, 1, 2, 3] 1 2 3 :=
  ⟨by decide, by decide, by decide, by decide, by decide,
    streaming_matches_bruteforce [0, 1, 2, 3, 0, 1, 2, 3] 2 3 1
      (by decide) (by decide) (by decide) (by decide) (by decide)⟩

/-- C3: for every sequence of length `L`, window size `w` and k-mer length
`k` with `k ≤ 32` and `w + k − 1 ≤ L`, the streaming extractor emits exactly
`L − w − k + 2` minimizers, one per window (stated without natural-number
truncation as `count + w + k = L + 2`). -/
theorem streaming_output_length (seq : List Nat) (w k : Nat)
    (hw : 1 ≤ w) (hk : 1 ≤ k) (hk32 : k ≤ 32)
    (hL : w + k - 1 ≤ seq.length) :
    (RB_Minimizer.get_minimizer_list seq w k).length + w + k
      = seq.length + 2 := by
  rw [RB_Minimizer.get_minimizer_list_eq seq w k hk hw,
    List.length_map, List.length_range]
  omega

theorem streaming_output_length_witness :
    1 ≤ 2 ∧ 1 ≤ 3 ∧ 3 ≤ 32
      ∧ 2 + 3 - 1 ≤ List.length [0, 1, 2, 3, 0, 1, 2, 3]
      ∧ (RB_Minimizer.get_minimizer_list [0, 1, 2, 3, 0, 1, 2, 3] 2 3).length + 2 + 3
          = List.length [0, 1, 2, 3, 0, 1, 2, 3] + 2 :=
  ⟨by decide, by decide, by decide, by decide,
    streaming_output_length [0, 1, 2, 3, 0, 1, 2, 3] 2 3
      (by decide) (by decide) (by decide) (by decide)⟩

/-- C8: for `k = 2`, `w = 3` and the sequence `"AAAA"` (`A` encoded as the
nucleotide code `0`, so all window k-mers are equal in code), the
single-window extractor returns the minimizer at position
`window_start + w − 1 = 2`: ties are resolved in favor of the last
equal-valued position scanned, not the first. -/
theorem tie_favors_last_position :
    RB_Minimizer.get_minimizer [0, 0, 0, 0] 0 3 2 = (0, 0 + 3 - 1)
      ∧ (RB_Minimizer.get_minimizer [0, 0, 0, 0] 0 3 2).2 ≠ 0 := by
  decide

/-- C9: for every sequence, offset and `k` with `1 ≤ k ≤ 32` and
`offset + k < length(seq)`, rolling forward equals re-encoding the shifted
window (`get_next_kmer (get_kmer seq offset k) seq[offset+k] k =
get_kmer seq (offset+1) k`, both paths applying the same symbol translation),
and every code — packed or emitted by the extractor — lies in `[0, 4^k)`. -/
theorem roll_forward_and_domain (seq : List Nat) (offset k : Nat)
    (hk : 1 ≤ k) (hk32 : k ≤ 32) (hoff : offset + k < seq.length) :
    RB_Minimizer.get_next_kmer (RB_Minimizer.get_kmer seq offset k)
        (seq.getD (offset + k) 0) k
      = RB_Minimizer.get_kmer seq (offset + 1) k
    ∧ RB_Minimizer.get_kmer seq offset k < 4 ^ k
    ∧ ∀ (seq2 : List Nat) (w : Nat), 1 ≤ w →
        ∀ m ∈ RB_Minimizer.get_minimizer_list seq2 w k, m.1 < 4 ^ k := by
  refine ⟨RB_Minimizer.get_next_kmer_roll seq offset k hk,
    RB_Minimizer.get_kmer_lt seq offset k, ?_⟩
  intro seq2 w hw m hm
  rw [RB_Minimizer.get_minimizer_list_eq seq2 w k hk hw] at hm
  simp only [List.mem_map, List.mem_range] at hm
  obtain ⟨i, _, heq⟩ := hm
  rw [← heq]
  exact RB_Minimizer.get_minimizer_code_lt seq2 i w k hk

/-- C2 (failing input): `isRepeat` initialises `prev_minimizer = 0` and
`prev_in = false`, so a query whose first minimizer code is `0` (a poly-A
window) compares equal to the sentinel and reuses the stale `false` verdict
without querying the set.  On the index built from the single training
sequence `"A"` (`w = k = 1`) and the query `"A"`: code `0` is in the
distinct-code set and the stream's single minimizer carries it, so the
claimed count is `1` and the verdict `2·1 ≥ 1 = true`, but the code counts
`0` and returns `false`. -/
theorem isRepeat_zero_sentinel_bug :
    RB_KmerTable.isIn (RB_KmerTable.build [[0]] 1 1) 0 = true
    ∧ ((RB_Minimizer.get_minimizer_list [0] 1 1).filter
          (fun m => RB_KmerTable.isIn (RB_KmerTable.build [[0]] 1 1) m.1)).length
        = 1
    ∧ (RB_Minimizer.get_minimizer_list [0] 1 1).length = 1
    ∧ RB_KmerTable.isRepeat (RB_KmerTable.build [[0]] 1 1) [0] = false := by
  decide

theorem dedupFrom_nil {α : Type} [DecidableEq α] (a : α) :
    dedupFrom a [] = [] := rfl

theorem dedupFrom_cons {α : Type} [DecidableEq α] (a e : α) (l : List α) :
    dedupFrom a (e :: l) =
      if a = e then dedupFrom a l else e :: dedupFrom e l := rfl

/-- Membership is unchanged by adjacent-duplicate removal. -/
theorem mem_dedupFrom {α : Type} [DecidableEq α] (l : List α) (a x : α) :
    x ∈ a :: dedupFrom a l ↔ x ∈ a :: l := by
  induction l generalizing a with
  | nil => rw [dedupFrom_nil]
  | cons e l ih =>
    rw [dedupFrom_cons]
    by_cases he : a = e
    · rw [if_pos he, ih a]
      subst he
      simp only [List.mem_cons]
      tauto
    · rw [if_neg he]
      have h2 := ih e
      simp only [List.mem_cons] at h2 ⊢
      tauto

/-- On a `le`-sorted list, adjacent-duplicate removal yields a strict
chain. -/
theorem dedupFrom_chain {α : Type} [DecidableEq α] {le lt : α → α → Prop}
    (hstep : ∀ a b, le a b → a ≠ b → lt a b) (l : List α) :
    ∀ a, List.Pairwise le (a :: l) → List.Chain lt a (dedupFrom a l) := by
  induction l with
  | nil =>
    intro a _
    exact List.Chain.nil
  | cons e l ih =>
    intro a h
    rw [List.pairwise_cons] at h
    rw [dedupFrom_cons]
    by_cases he : a = e
    · rw [if_pos he]
      refine ih a ?_
      rw [List.pairwise_cons]
      exact ⟨fun b hb => h.1 b (List.mem_cons_of_mem e hb), h.2.of_cons⟩
    · rw [if_neg he]
      exact List.Chain.cons (hstep a e (h.1 e (List.mem_cons_self e l)) he)
        (ih e h.2)

theorem dedup_pass_nil : RB_KmerTable.dedup_pass [] = [] := rfl

/-- The foldl-with-append form of the duplicate-removal pass, peeled to a
structural recursion. -/
theorem dedup_pass_aux (l acc : List (Nat × Nat)) (a : Nat × Nat) :
    l.foldl (fun tmp e => if tmp.getLast? = some e then tmp else tmp ++ [e])
      (acc ++ [a])
    = acc ++ a :: dedupFrom a l := by
  induction l generalizing acc a with
  | nil => simp [dedupFrom_nil]
  | cons e l ih =>
    rw [List.foldl_cons, dedupFrom_cons]
    by_cases he : a = e
    · rw [if_pos (by rw [List.getLast?_concat, he]),
        if_pos he, ih acc a]
    · rw [if_neg (by rw [List.getLast?_concat]; simp [he]), if_neg he]
      rw [ih (acc ++ [a]) e]
      simp

theorem dedup_pass_eq (x : Nat × Nat) (l : List (Nat × Nat)) :
    RB_KmerTable.dedup_pass (x :: l) = x :: dedupFrom x l := by
  unfold RB_KmerTable.dedup_pass
  rw [List.foldl_cons]
  have h := dedup_pass_aux l [] x
  simp only [List.nil_append] at h
  exact h

/-- A pair `le`-below and different from another is strictly below it. -/
theorem pairLe_ne_lt (a b : Nat × Nat) (h1 : pairLe a b) (h2 : a ≠ b) :
    pairLt a b := by
  unfold pairLe at h1
  unfold pairLt
  by_cases hf : a.1 = b.1
  · right
    refine ⟨hf, ?_⟩
    have hs : a.2 ≠ b.2 := fun hs => h2 (Prod.ext hf hs)
    omega
  · left
    omega

theorem pairLt_imp_le (a b : Nat × Nat) (h : pairLt a b) : pairLe a b := by
  unfold pairLt at h
  unfold pairLe
  omega

theorem pairLt_imp_ne (a b : Nat × Nat) (h : pairLt a b) : a ≠ b := by
  intro he
  subst he
  unfold pairLt at h
  omega

/-- The duplicate-removal pass of `build` turns a `pairLe`-sorted table into
a strictly `pairLt`-sorted one. -/
theorem dedup_pass_pairwise (l : List (Nat × Nat))
    (h : List.Pairwise pairLe l) : List.Pairwise pairLt (RB_KmerTable.dedup_pass l) := by
  cases l with
  | nil =>
    rw [dedup_pass_nil]
    exact List.Pairwise.nil
  | cons x l =>
    rw [dedup_pass_eq, ← List.chain_iff_pairwise]
    exact dedupFrom_chain pairLe_ne_lt l x h

/-- C4: after `build(seqs, w, k)`, the entry table is sorted ascending by
`(code, sourceId)` and contains no duplicate `(code, sourceId)` pair, while
a single code may still be paired with several distinct `sourceId`s (shown
on two identical training sequences: code `0` is paired with ids `0` and
`1`). -/
theorem build_table_invariant :
    (∀ (seqs : List (List Nat)) (w k : Nat),
        List.Sorted pairLe (RB_KmerTable.build seqs w k).kmer_table_
        ∧ (RB_KmerTable.build seqs w k).kmer_table_.Nodup)
    ∧ (0, 0) ∈ (RB_KmerTable.build [[0, 1], [0, 1]] 1 1).kmer_table_
    ∧ (0, 1) ∈ (RB_KmerTable.build [[0, 1], [0, 1]] 1 1).kmer_table_ := by
  refine ⟨fun seqs w k => ?_, by decide, by decide⟩
  have hsorted : List.Sorted pairLe
      (List.insertionSort pairLe
        (seqs.enum.foldl
          (fun st p =>
            (RB_Minimizer.get_minimizer_list p.2 w k).foldl
              (RB_KmerTable.buildStep p.1) st)
          ([], [])).1) :=
    List.sorted_insertionSort pairLe _
  have hp : List.Pairwise pairLt (RB_KmerTable.build seqs w k).kmer_table_ :=
    dedup_pass_pairwise _ hsorted
  constructor
  · exact hp.imp (fun h => pairLt_imp_le _ _ h)
  · exact hp.imp (fun h => pairLt_imp_ne _ _ h)

theorem setInsert_cons (y : Nat) (l : List Nat) (x : Nat) :
    setInsert (y :: l) x =
      if x < y then x :: y :: l
      else if x = y then y :: l
      else y :: setInsert l x := rfl

theorem mem_setInsert (s : List Nat) (x b : Nat) :
    b ∈ setInsert s x ↔ b = x ∨ b ∈ s := by
  induction s with
  | nil => simp [setInsert]
  | cons y l ih =>
    rw [setInsert_cons]
    by_cases h1 : x < y
    · rw [if_pos h1]
      simp only [List.mem_cons]
    · rw [if_neg h1]
      by_cases h2 : x = y
      · subst h2
        rw [if_pos rfl]
        simp only [List.mem_cons]
        tauto
      · rw [if_neg h2]
        simp only [List.mem_cons, ih]
        tauto

/-- `std::set` insertion keeps the list strictly sorted. -/
theorem setInsert_sorted (s : List Nat) (x : Nat)
    (h : List.Pairwise (· < ·) s) :
    List.Pairwise (· < ·) (setInsert s x) := by
  induction s with
  | nil => simp [setInsert]
  | cons y l ih =>
    rw [setInsert_cons]
    rw [List.pairwise_cons] at h
    by_cases h1 : x < y
    · rw [if_pos h1, List.pairwise_cons]
      constructor
      · intro b hb
        rcases List.mem_cons.mp hb with rfl | hb
        · exact h1
        · exact Nat.lt_trans h1 (h.1 b hb)
      · rw [List.pairwise_cons]
        exact h
    · rw [if_neg h1]
      by_cases h2 : x = y
      · rw [if_pos h2, List.pairwise_cons]
        exact h
      · rw [if_neg h2, List.pairwise_cons]
        constructor
        · intro b hb
          rcases (mem_setInsert l x b).mp hb with rfl | hb
          · omega
          · exact h.1 b hb
        · exact ih h.2

/-- A fold preserves any invariant its step preserves. -/
theorem foldl_preserve {β σ : Type} (P : σ → Prop) (f : σ → β → σ)
    (l : List β) (s : σ) (hstep : ∀ s b, b ∈ l → P s → P (f s b))
    (hinit : P s) : P (l.foldl f s) := by
  induction l generalizing s with
  | nil => exact hinit
  | cons b l ih =>
    rw [List.foldl_cons]
    exact ih (f s b)
      (fun s' b' hb' => hstep s' b' (List.mem_cons_of_mem _ hb'))
      (hstep s b (List.mem_cons_self _ _) hinit)

/-- `build` keeps the distinct-code set strictly sorted. -/
theorem build_kmers_sorted (seqs : List (List Nat)) (w k : Nat) :
    List.Pairwise (· < ·) (RB_KmerTable.build seqs w k).kmers_ :=
  foldl_preserve
    (fun st : List (Nat × Nat) × List Nat => List.Pairwise (· < ·) st.2)
    _ seqs.enum ([], [])
    (fun st p _ hP =>
      foldl_preserve
        (fun st : List (Nat × Nat) × List Nat => List.Pairwise (· < ·) st.2)
        (RB_KmerTable.buildStep p.1)
        (RB_Minimizer.get_minimizer_list p.2 w k) st
        (fun st' m _ hP' => by
          unfold RB_KmerTable.buildStep
          by_cases hb : st'.1.getLast? = some (m.1, p.1)
          · rw [if_pos hb]
            exact hP'
          · rw [if_neg hb]
            exact setInsert_sorted _ _ hP')
        hP)
    List.Pairwise.nil

/-- Inserting an element above everything appends it. -/
theorem setInsert_append_gt (s : List Nat) (x : Nat) (h : ∀ y ∈ s, y < x) :
    setInsert s x = s ++ [x] := by
  induction s with
  | nil => rfl
  | cons y l ih =>
    rw [setInsert_cons]
    have hy : y < x := h y (List.mem_cons_self _ _)
    rw [if_neg (by omega), if_neg (by omega),
      ih (fun z hz => h z (List.mem_cons_of_mem _ hz))]
    rfl

theorem readKmers_nil (target : Nat) (ks : List Nat) :
    RB_KmerTable.readKmers target [] ks
      = if ks.length < target then none else some ks := rfl

theorem readKmers_cons (target x : Nat) (rest ks : List Nat) :
    RB_KmerTable.readKmers target (x :: rest) ks
      = if ks.length < target
        then RB_KmerTable.readKmers target rest (setInsert ks x)
        else some ks := rfl

/-- Reading back a strictly ascending stream rebuilds exactly that list. -/
theorem readKmers_sorted_append :
    ∀ (l₂ l₁ : List Nat), List.Pairwise (· < ·) (l₁ ++ l₂) →
      RB_KmerTable.readKmers (l₁.length + l₂.length) l₂ l₁ = some (l₁ ++ l₂) := by
  intro l₂
  induction l₂ with
  | nil =>
    intro l₁ h
    rw [readKmers_nil, if_neg (by simp)]
    simp
  | cons x rest ih =>
    intro l₁ h
    rw [readKmers_cons,
      if_pos (by simp only [List.length_cons]; omega)]
    have hlt : ∀ y ∈ l₁, y < x := by
      rw [List.pairwise_append] at h
      intro y hy
      exact h.2.2 y hy x (List.mem_cons_self _ _)
    rw [setInsert_append_gt l₁ x hlt]
    have harr : l₁.length + (x :: rest).length
        = (l₁ ++ [x]).length + rest.length := by
      simp only [List.length_cons, List.length_append, List.length_nil]
      omega
    have happ : (l₁ ++ [x]) ++ rest = l₁ ++ x :: rest := by simp
    rw [harr, ← happ]
    exact ih (l₁ ++ [x]) (by rw [happ]; exact h)

/-- C6: for any index produced by `build`, `write` followed by `read` with
the same endianness into a fresh index reconstructs `w`, `k` and the
distinct-code set exactly (here even as the identical ascending list, hence
equal as a set); the entry table of the restored index is empty. -/
theorem build_write_read_roundtrip (seqs : List (List Nat)) (w k : Nat)
    (b : Bool) :
    RB_KmerTable.read RB_KmerTable.mk0
        (RB_KmerTable.write (RB_KmerTable.build seqs w k) b) b
      = some { w_ := w, k_ := k, kmer_table_ := [],
               kmers_ := (RB_KmerTable.build seqs w k).kmers_ } := by
  unfold RB_KmerTable.write RB_KmerTable.read
  show ((RB_KmerTable.readKmers ((RB_KmerTable.build seqs w k).kmers_.length)
      ((RB_KmerTable.build seqs w k).kmers_) RB_KmerTable.mk0.kmers_).map _) = _
  have h := readKmers_sorted_append ((RB_KmerTable.build seqs w k).kmers_) []
    (by simpa using build_kmers_sorted seqs w k)
  simp only [List.length_nil, List.nil_append, Nat.zero_add] at h
  show ((RB_KmerTable.readKmers ((RB_KmerTable.build seqs w k).kmers_.length)
      ((RB_KmerTable.build seqs w k).kmers_) []).map _) = _
  rw [h]
  rfl

theorem collectFor_nil (code : Nat) : RB_KmerTable.collectFor [] code = [] := rfl

theorem collectAux_nil (ms : List (Nat × Nat)) :
    ∀ prev, RB_KmerTable.collectAux [] prev ms = [] := by
  induction ms with
  | nil =>
    intro prev
    rfl
  | cons m ms ih =>
    intro prev
    show (if m.1 == prev then RB_KmerTable.collectAux [] prev ms
      else RB_KmerTable.collectFor [] m.1 ++ RB_KmerTable.collectAux [] m.1 ms) = []
    by_cases hm : m.1 == prev
    · rw [if_pos hm]
      exact ih prev
    · rw [if_neg hm, collectFor_nil, ih m.1]
      rfl

theorem collectPhase_nil (ms : List (Nat × Nat)) :
    RB_KmerTable.collectPhase [] ms = [] := by
  cases ms with
  | nil => rfl
  | cons m ms =>
    show RB_KmerTable.collectFor [] m.1 ++ RB_KmerTable.collectAux [] m.1 ms = []
    rw [collectFor_nil, collectAux_nil ms m.1]
    rfl

/-- C7: `read` restores only `w`, `k` and the distinct-code set and leaves
the `(code, sourceId)` entry table unpopulated, so after restoring into a
freshly constructed index `findRepeats` yields the empty id list for every
query, while `isRepeat` is untouched by the missing table (it depends only
on `w`, `k` and the distinct-code set). -/
theorem read_restores_only_set (stream : List Nat) (b : Bool)
    (t' : RB_KmerTable)
    (h : RB_KmerTable.read RB_KmerTable.mk0 stream b = some t') :
    t'.kmer_table_ = []
    ∧ (∀ query : List Nat, RB_KmerTable.findRepeats t' query = [])
    ∧ (∀ (tab : List (Nat × Nat)) (query : List Nat),
        RB_KmerTable.isRepeat { t' with kmer_table_ := tab } query
          = RB_KmerTable.isRepeat t' query) := by
  have htab : t'.kmer_table_ = [] := by
    rcases stream with _ | ⟨n, _ | ⟨w1, _ | ⟨k1, rest⟩⟩⟩
    · exact absurd h (by simp [RB_KmerTable.read])
    · exact absurd h (by simp [RB_KmerTable.read])
    · exact absurd h (by simp [RB_KmerTable.read])
    · unfold RB_KmerTable.read at h
      rcases Option.map_eq_some'.mp h with ⟨ks, _, ht'⟩
      rw [← ht']
      rfl
  refine ⟨htab, ?_, ?_⟩
  · intro query
    unfold RB_KmerTable.findRepeats
    rw [htab]
    simp [collectPhase_nil, RB_KmerTable.dedupIds]
  · intro tab query
    rfl

theorem read_restores_only_set_witness :
    RB_KmerTable.read RB_KmerTable.mk0 [1, 5, 9, 3] false
        = some ⟨5, 9, [], [3]⟩
    ∧ ((⟨5, 9, [], [3]⟩ : RB_KmerTable).kmer_table_ = []
        ∧ (∀ query : List Nat,
            RB_KmerTable.findRepeats ⟨5, 9, [], [3]⟩ query = [])
        ∧ (∀ (tab : List (Nat × Nat)) (query : List Nat),
            RB_KmerTable.isRepeat
                { (⟨5, 9, [], [3]⟩ : RB_KmerTable) with kmer_table_ := tab }
                query
              = RB_KmerTable.isRepeat ⟨5, 9, [], [3]⟩ query)) :=
  ⟨by decide,
    read_restores_only_set [1, 5, 9, 3] false ⟨5, 9, [], [3]⟩ (by decide)⟩

/-- C10: the query operations leave every index field unchanged and their
results and final buffer contents are independent of the prior contents of
the caller-supplied scratch buffers (which are cleared before use):
`isRepeat` only rewrites the minimizer buffer, `findRepeats` rewrites both. -/
theorem query_frame_and_buffer_independence (t : RB_KmerTable)
    (mb mb' : List (Nat × Nat)) (rb rb' : List Nat) (q : List Nat) :
    (isRepeatS ⟨t, mb, rb⟩ q).2.table = t
    ∧ (findRepeatsS ⟨t, mb, rb⟩ q).table = t
    ∧ isRepeatS ⟨t, mb, rb⟩ q = isRepeatS ⟨t, mb', rb⟩ q
    ∧ findRepeatsS ⟨t, mb, rb⟩ q = findRepeatsS ⟨t, mb', rb'⟩ q
    ∧ (isRepeatS ⟨t, mb, rb⟩ q).2.minimizers
        = RB_Minimizer.get_minimizer_list q t.w_ t.k_
    ∧ (findRepeatsS ⟨t, mb, rb⟩ q).repeats = RB_KmerTable.findRepeats t q :=
  ⟨rfl, rfl, rfl, rfl, rfl, rfl⟩

theorem pairLe_fst (a b : Nat × Nat) (h : pairLe a b) : a.1 ≤ b.1 := by
  unfold pairLe at h
  omega

theorem collectAux_cons (tab : List (Nat × Nat)) (prev : Nat) (m : Nat × Nat)
    (ms : List (Nat × Nat)) :
    RB_KmerTable.collectAux tab prev (m :: ms)
      = if m.1 == prev then RB_KmerTable.collectAux tab prev ms
        else RB_KmerTable.collectFor tab m.1
          ++ RB_KmerTable.collectAux tab m.1 ms := rfl

theorem collectAux_nil_ms (tab : List (Nat × Nat)) (prev : Nat) :
    RB_KmerTable.collectAux tab prev [] = [] := rfl

theorem collectPhase_cons (tab : List (Nat × Nat)) (m : Nat × Nat)
    (ms : List (Nat × Nat)) :
    RB_KmerTable.collectPhase tab (m :: ms)
      = RB_KmerTable.collectFor tab m.1
        ++ RB_KmerTable.collectAux tab m.1 ms := rfl

theorem pairLt_zero_iff (e : Nat × Nat) (code : Nat) :
    pairLt e (code, 0) ↔ e.1 < code := by
  show e.1 < code ∨ (e.1 = code ∧ e.2 < 0) ↔ e.1 < code
  omega

/-- The lower-bound search skips an entry whose code is below the probe. -/
theorem collectFor_cons_lt (e : Nat × Nat) (tab : List (Nat × Nat))
    (code : Nat) (hlt : e.1 < code) :
    RB_KmerTable.collectFor (e :: tab) code
      = RB_KmerTable.collectFor tab code := by
  unfold RB_KmerTable.collectFor RB_KmerTable.bsearchLoBound
  rw [List.findIdx_cons]
  have hc : (!decide (pairLt e (code, 0))) = false := by
    simp [pairLt_zero_iff, hlt]
  rw [hc]
  rfl

/-- The lower-bound search stops at the first entry whose code is not below
the probe. -/
theorem collectFor_cons_ge (e : Nat × Nat) (tab : List (Nat × Nat))
    (code : Nat) (hge : ¬ e.1 < code) :
    RB_KmerTable.collectFor (e :: tab) code
      = ((e :: tab).takeWhile (fun x => code == x.1)).map
          (fun x => x.2 % 2 ^ 32) := by
  unfold RB_KmerTable.collectFor RB_KmerTable.bsearchLoBound
  rw [List.findIdx_cons]
  have hc : (!decide (pairLt e (code, 0))) = true := by
    simp [pairLt_zero_iff, hge]
  rw [hc]
  rfl

/-- Once every remaining code is at least the probe, the matching run is
exactly the filtered set. -/
theorem takeWhile_eq_filter_of_ge (code : Nat) :
    ∀ (l : List (Nat × Nat)), List.Pairwise pairLe l →
      (∀ x ∈ l, code ≤ x.1) →
      l.takeWhile (fun e => code == e.1) = l.filter (fun e => e.1 == code) := by
  intro l
  induction l with
  | nil =>
    intro _ _
    rfl
  | cons e l ih =>
    intro h hge
    rw [List.pairwise_cons] at h
    by_cases hc : e.1 = code
    · rw [List.takeWhile_cons, List.filter_cons,
        if_pos (by simp [hc]), if_pos (by simp [hc]),
        ih h.2 (fun x hx => hge x (List.mem_cons_of_mem _ hx))]
    · have hlt : code < e.1 := by
        have := hge e (List.mem_cons_self _ _)
        omega
      rw [List.takeWhile_cons, List.filter_cons,
        if_neg (by simp; omega), if_neg (by simp; omega)]
      symm
      rw [List.filter_eq_nil_iff]
      intro x hx
      have h2 : e.1 ≤ x.1 := pairLe_fst _ _ (h.1 x hx)
      simp
      omega

/-- On a sorted table the binary-search-and-scan collection returns exactly
the `sourceId`s of the entries carrying the probed code. -/
theorem collectFor_eq_filter :
    ∀ (tab : List (Nat × Nat)), List.Pairwise pairLe tab →
      ∀ code, RB_KmerTable.collectFor tab code
        = (tab.filter (fun e => e.1 == code)).map (fun e => e.2 % 2 ^ 32) := by
  intro tab
  induction tab with
  | nil =>
    intro _ code
    rfl
  | cons e tab ih =>
    intro h code
    rw [List.pairwise_cons] at h
    rcases Nat.lt_trichotomy e.1 code with hlt | heq | hgt
    · rw [collectFor_cons_lt e tab code hlt, ih h.2 code, List.filter_cons,
        if_neg (by simp; omega)]
    · rw [collectFor_cons_ge e tab code (by omega),
        List.takeWhile_cons, if_pos (by simp [heq]),
        List.filter_cons, if_pos (by simp [heq]), List.map_cons,
        List.map_cons]
      congr 1
      rw [takeWhile_eq_filter_of_ge code tab h.2
        (fun x hx => by have := pairLe_fst e x (h.1 x hx); omega)]
    · rw [collectFor_cons_ge e tab code (by omega),
        List.takeWhile_cons, if_neg (by simp; omega),
        List.filter_cons, if_neg (by simp; omega)]
      have hnil : tab.filter (fun e => e.1 == code) = [] := by
        rw [List.filter_eq_nil_iff]
        intro x hx
        have := pairLe_fst e x (h.1 x hx)
        simp
        omega
      rw [hnil]

theorem mem_collectFor (tab : List (Nat × Nat)) (code x : Nat)
    (h : List.Pairwise pairLe tab) :
    x ∈ RB_KmerTable.collectFor tab code
      ↔ ∃ e, e ∈ tab ∧ e.1 = code ∧ e.2 % 2 ^ 32 = x := by
  rw [collectFor_eq_filter tab h code]
  simp only [List.mem_map, List.mem_filter, beq_iff_eq]
  constructor
  · rintro ⟨e, ⟨he, hc⟩, hx⟩
    exact ⟨e, he, hc, hx⟩
  · rintro ⟨e, he, hc, hx⟩
    exact ⟨e, ⟨he, hc⟩, hx⟩

/-- Skipping adjacent equal codes loses no collected id: relative to the
previously collected code, the scan gathers the ids of every minimizer's
code. -/
theorem mem_collectAux :
    ∀ (ms : List (Nat × Nat)) (tab : List (Nat × Nat)) (prev x : Nat),
      (x ∈ RB_KmerTable.collectFor tab prev
          ∨ x ∈ RB_KmerTable.collectAux tab prev ms)
      ↔ (x ∈ RB_KmerTable.collectFor tab prev
          ∨ ∃ m, m ∈ ms ∧ x ∈ RB_KmerTable.collectFor tab m.1) := by
  intro ms
  induction ms with
  | nil =>
    intro tab prev x
    rw [collectAux_nil_ms]
    constructor
    · rintro (h | h)
      · exact Or.inl h
      · exact absurd h (List.not_mem_nil x)
    · rintro (h | ⟨m, hm, _⟩)
      · exact Or.inl h
      · exact absurd hm (List.not_mem_nil m)
  | cons m ms ih =>
    intro tab prev x
    rw [collectAux_cons]
    by_cases hm : m.1 = prev
    · rw [if_pos (by simp [hm]), ih tab prev x]
      constructor
      · rintro (h | ⟨m', hm', hx⟩)
        · exact Or.inl h
        · exact Or.inr ⟨m', List.mem_cons_of_mem _ hm', hx⟩
      · rintro (h | ⟨m', hm', hx⟩)
        · exact Or.inl h
        · rcases List.mem_cons.mp hm' with rfl | hm''
          · rw [hm] at hx
            exact Or.inl hx
          · exact Or.inr ⟨m', hm'', hx⟩
    · rw [if_neg (by simp [hm])]
      rw [List.mem_append]
      constructor
      · rintro (h | h | h)
        · exact Or.inl h
        · exact Or.inr ⟨m, List.mem_cons_self _ _, h⟩
        · rcases (ih tab m.1 x).mp (Or.inr h) with h2 | ⟨m', hm', hx⟩
          · exact Or.inr ⟨m, List.mem_cons_self _ _, h2⟩
          · exact Or.inr ⟨m', List.mem_cons_of_mem _ hm', hx⟩
      · rintro (h | ⟨m', hm', hx⟩)
        · exact Or.inl h
        · rcases List.mem_cons.mp hm' with rfl | hm''
          · exact Or.inr (Or.inl hx)
          · rcases (ih tab m.1 x).mpr (Or.inr ⟨m', hm'', hx⟩) with h2 | h2
            · exact Or.inr (Or.inl h2)
            · exact Or.inr (Or.inr h2)

/-- The id-collection scan gathers exactly the ids of entries sharing a code
with some minimizer of the stream. -/
theorem mem_collectPhase (tab ms : List (Nat × Nat)) (x : Nat) :
    x ∈ RB_KmerTable.collectPhase tab ms
      ↔ ∃ m, m ∈ ms ∧ x ∈ RB_KmerTable.collectFor tab m.1 := by
  cases ms with
  | nil =>
    constructor
    · intro h
      exact absurd h (List.not_mem_nil x)
    · rintro ⟨m, hm, _⟩
      exact absurd hm (List.not_mem_nil m)
  | cons m ms =>
    rw [collectPhase_cons, List.mem_append]
    have h := mem_collectAux ms tab m.1 x
    constructor
    · rintro (h1 | h1)
      · exact ⟨m, List.mem_cons_self _ _, h1⟩
      · rcases h.mp (Or.inr h1) with h2 | ⟨m', hm', hx⟩
        · exact ⟨m, List.mem_cons_self _ _, h2⟩
        · exact ⟨m', List.mem_cons_of_mem _ hm', hx⟩
    · rintro ⟨m', hm', hx⟩
      rcases List.mem_cons.mp hm' with rfl | hm''
      · exact Or.inl hx
      · rcases h.mpr (Or.inr ⟨m', hm'', hx⟩) with h2 | h2
        · exact Or.inl h2
        · exact Or.inr h2

theorem markAux_nil (x : Nat) : RB_KmerTable.markAux x [] = ([], 0) := rfl

theorem markAux_cons (x y : Nat) (l : List Nat) :
    RB_KmerTable.markAux x (y :: l)
      = if y = x
        then ((RB_KmerTable.markAux x l).1.cons RB_KmerTable.OFF_MAX,
              (RB_KmerTable.markAux x l).2 + 1)
        else ((RB_KmerTable.markAux y l).1.cons y,
              (RB_KmerTable.markAux y l).2) := rfl

theorem markDups_cons (y : Nat) (l : List Nat) :
    RB_KmerTable.markDups (y :: l)
      = ((RB_KmerTable.markAux y l).1.cons y,
         (RB_KmerTable.markAux y l).2) := rfl

/-- Sentinel marking keeps (as a multiset) the deduplicated survivors plus
`remove_count` copies of the sentinel. -/
theorem markAux_perm :
    ∀ (l : List Nat) (x : Nat),
      (RB_KmerTable.markAux x l).1.Perm
        (dedupFrom x l
          ++ List.replicate (RB_KmerTable.markAux x l).2 RB_KmerTable.OFF_MAX) := by
  intro l
  induction l with
  | nil =>
    intro x
    rw [markAux_nil, dedupFrom_nil]
    exact List.Perm.refl _
  | cons y l ih =>
    intro x
    rw [markAux_cons, dedupFrom_cons]
    by_cases he : y = x
    · rw [if_pos he, if_pos he.symm]
      dsimp only
      rw [List.replicate_succ]
      exact ((ih x).cons RB_KmerTable.OFF_MAX).trans List.perm_middle.symm
    · rw [if_neg he, if_neg (fun h => he h.symm)]
      dsimp only
      exact (ih y).cons y

/-- The whole sentinel pipeline of `findRepeats` deduplicates: the result is
strictly sorted and carries exactly the collected ids. -/
theorem dedupIds_spec (rep : List Nat)
    (hlt : ∀ z ∈ rep, z < RB_KmerTable.OFF_MAX) :
    List.Pairwise (· < ·) (RB_KmerTable.dedupIds rep)
    ∧ ∀ x, (x ∈ RB_KmerTable.dedupIds rep ↔ x ∈ rep) := by
  unfold RB_KmerTable.dedupIds
  by_cases he : rep.isEmpty
  · rw [if_pos he]
    rw [List.isEmpty_iff] at he
    subst he
    exact ⟨List.Pairwise.nil, fun x => Iff.rfl⟩
  · rw [if_neg he]
    rcases hs : List.insertionSort (· ≤ ·) rep with _ | ⟨y, l⟩
    · exfalso
      have hp := List.perm_insertionSort (· ≤ ·) rep
      rw [hs] at hp
      rw [List.isEmpty_iff] at he
      exact he hp.symm.eq_nil
    · have hsorted_s : List.Pairwise (· ≤ ·) (y :: l) := by
        rw [← hs]
        exact List.sorted_insertionSort (· ≤ ·) rep
      have hmem_s : ∀ z, z ∈ y :: l ↔ z ∈ rep := by
        intro z
        rw [← hs]
        exact List.mem_insertionSort (· ≤ ·)
      have hD : List.Pairwise (· < ·) (y :: dedupFrom y l) := by
        rw [← List.chain_iff_pairwise]
        exact dedupFrom_chain (fun a b hle hne => by omega) l y hsorted_s
      have hperm : (RB_KmerTable.markDups (y :: l)).1.Perm
          ((y :: dedupFrom y l)
            ++ List.replicate (RB_KmerTable.markDups (y :: l)).2
                RB_KmerTable.OFF_MAX) := by
        rw [markDups_cons]
        exact (markAux_perm l y).cons y
      have hsorted_pipe : List.Pairwise (· ≤ ·)
          ((y :: dedupFrom y l)
            ++ List.replicate (RB_KmerTable.markDups (y :: l)).2
                RB_KmerTable.OFF_MAX) := by
        rw [List.pairwise_append]
        refine ⟨hD.imp (fun h => Nat.le_of_lt h), ?_, ?_⟩
        · rw [List.pairwise_replicate]
          right
          exact Nat.le_refl _
        · intro a ha b hb
          have ha' : a ∈ rep := (hmem_s a).mp ((mem_dedupFrom l y a).mp ha)
          have hb' : b = RB_KmerTable.OFF_MAX := List.eq_of_mem_replicate hb
          have := hlt a ha'
          omega
      have hsort_eq : List.insertionSort (· ≤ ·) (RB_KmerTable.markDups (y :: l)).1
          = (y :: dedupFrom y l)
            ++ List.replicate (RB_KmerTable.markDups (y :: l)).2
                RB_KmerTable.OFF_MAX :=
        List.eq_of_perm_of_sorted
          ((List.perm_insertionSort (· ≤ ·) _).trans hperm)
          (List.sorted_insertionSort (· ≤ ·) _) hsorted_pipe
      dsimp only
      rw [hsort_eq]
      have hlen : ((y :: dedupFrom y l)
            ++ List.replicate (RB_KmerTable.markDups (y :: l)).2
                RB_KmerTable.OFF_MAX).length
            - (RB_KmerTable.markDups (y :: l)).2
          = (y :: dedupFrom y l).length := by
        rw [List.length_append, List.length_replicate]
        omega
      rw [hlen, List.take_left]
      refine ⟨hD, fun x => ?_⟩
      rw [mem_dedupFrom l y x, hmem_s x]

theorem build_table_pairwiseLt (seqs : List (List Nat)) (w k : Nat) :
    List.Pairwise pairLt (RB_KmerTable.build seqs w k).kmer_table_ := by
  unfold RB_KmerTable.build
  dsimp only
  exact dedup_pass_pairwise _ (List.sorted_insertionSort pairLe _)

theorem dedup_pass_subset (l : List (Nat × Nat)) :
    ∀ x ∈ RB_KmerTable.dedup_pass l, x ∈ l := by
  cases l with
  | nil =>
    intro x hx
    rw [dedup_pass_nil] at hx
    exact absurd hx (List.not_mem_nil x)
  | cons e l =>
    intro x hx
    rw [dedup_pass_eq] at hx
    exact (mem_dedupFrom l e x).mp hx

/-- Every `sourceId` stored by `build` is the index of one of the training
sequences. -/
theorem build_table_id_lt (seqs : List (List Nat)) (w k : Nat) :
    ∀ e ∈ (RB_KmerTable.build seqs w k).kmer_table_, e.2 < seqs.length := by
  intro e he
  have h1 : e ∈ List.insertionSort pairLe
      (seqs.enum.foldl
        (fun st p =>
          (RB_Minimizer.get_minimizer_list p.2 w k).foldl
            (RB_KmerTable.buildStep p.1) st)
        ([], [])).1 := dedup_pass_subset _ e he
  rw [List.mem_insertionSort] at h1
  have h2 : ∀ x ∈ (seqs.enum.foldl
      (fun st p =>
        (RB_Minimizer.get_minimizer_list p.2 w k).foldl
          (RB_KmerTable.buildStep p.1) st)
      ([], [])).1, x.2 < seqs.length := by
    refine foldl_preserve
      (fun st : List (Nat × Nat) × List Nat => ∀ x ∈ st.1, x.2 < seqs.length)
      _ seqs.enum ([], []) ?_ ?_
    · intro st p hp hP
      refine foldl_preserve
        (fun st : List (Nat × Nat) × List Nat => ∀ x ∈ st.1, x.2 < seqs.length)
        (RB_KmerTable.buildStep p.1)
        (RB_Minimizer.get_minimizer_list p.2 w k) st ?_ hP
      intro st' m _ hP'
      unfold RB_KmerTable.buildStep
      by_cases hb : st'.1.getLast? = some (m.1, p.1)
      · rw [if_pos hb]
        exact hP'
      · rw [if_neg hb]
        intro x hx
        rcases List.mem_append.mp hx with hx1 | hx2
        · exact hP' x hx1
        · rcases List.mem_singleton.mp hx2 with rfl
          show p.1 < seqs.length
          have hg := List.mem_enum_iff_get?.mp hp
          rcases List.get?_eq_some.mp hg with ⟨hlt, _⟩
          exact hlt
    · intro x hx
      exact absurd hx (List.not_mem_nil x)
  exact h2 e h1

/-- On any index with a strictly sorted table of small-enough ids,
`findRepeats` returns the strictly sorted list of exactly the ids sharing a
minimizer code with the query. -/
theorem findRepeats_spec (t : RB_KmerTable) (query : List Nat)
    (hsorted : List.Pairwise pairLt t.kmer_table_)
    (hid : ∀ e ∈ t.kmer_table_, e.2 < 2 ^ 32 - 1) :
    List.Pairwise (· < ·) (t.findRepeats query)
    ∧ ∀ x, (x ∈ t.findRepeats query
        ↔ ∃ m, m ∈ RB_Minimizer.get_minimizer_list query t.w_ t.k_
            ∧ (m.1, x) ∈ t.kmer_table_) := by
  have hle : List.Pairwise pairLe t.kmer_table_ :=
    hsorted.imp (fun h => pairLt_imp_le _ _ h)
  have hcoll : ∀ x, x ∈ RB_KmerTable.collectPhase t.kmer_table_
        (RB_Minimizer.get_minimizer_list query t.w_ t.k_)
      ↔ ∃ m, m ∈ RB_Minimizer.get_minimizer_list query t.w_ t.k_
          ∧ (m.1, x) ∈ t.kmer_table_ := by
    intro x
    rw [mem_collectPhase]
    constructor
    · rintro ⟨m, hm, hx⟩
      rcases (mem_collectFor _ _ _ hle).mp hx with ⟨e, he, hc, hmod⟩
      have hlt : e.2 < 2 ^ 32 := by
        have := hid e he
        omega
      have hx2 : e.2 = x := by
        rw [Nat.mod_eq_of_lt hlt] at hmod
        exact hmod
      refine ⟨m, hm, ?_⟩
      have hme : e = (m.1, x) := Prod.ext hc hx2
      rw [← hme]
      exact he
    · rintro ⟨m, hm, he⟩
      refine ⟨m, hm, ?_⟩
      rw [mem_collectFor _ _ _ hle]
      refine ⟨(m.1, x), he, rfl, ?_⟩
      have hlt : x < 2 ^ 32 := by
        have := hid (m.1, x) he
        dsimp only at this
        omega
      exact Nat.mod_eq_of_lt hlt
  have hids : ∀ z ∈ RB_KmerTable.collectPhase t.kmer_table_
      (RB_Minimizer.get_minimizer_list query t.w_ t.k_),
      z < RB_KmerTable.OFF_MAX := by
    intro z hz
    rcases (hcoll z).mp hz with ⟨m, hm, he⟩
    have := hid (m.1, z) he
    dsimp only at this
    exact this
  have hspec := dedupIds_spec
    (RB_KmerTable.collectPhase t.kmer_table_
      (RB_Minimizer.get_minimizer_list query t.w_ t.k_)) hids
  refine ⟨hspec.1, fun x => ?_⟩
  rw [show t.findRepeats query
      = RB_KmerTable.dedupIds (RB_KmerTable.collectPhase t.kmer_table_
          (RB_Minimizer.get_minimizer_list query t.w_ t.k_)) from rfl,
    hspec.2 x]
  exact hcoll x

/-- C5: for every valid query on a built index (with fewer training
sequences than `TIndexOffU`'s maximum), `findRepeats` returns exactly the
set of `sourceId`s that share at least one minimizer code with the query's
minimizer stream, sorted strictly ascending (hence with no duplicate ids);
when no trained sequence shares a minimizer with the query the returned list
is empty. -/
theorem findRepeats_correct (seqs : List (List Nat)) (w k : Nat)
    (query : List Nat) (hw : 1 ≤ w) (hk : 1 ≤ k) (hk32 : k ≤ 32)
    (hq : w + k - 1 ≤ query.length) (hs : seqs.length ≤ 2 ^ 32 - 1) :
    List.Pairwise (· < ·)
      (RB_KmerTable.findRepeats (RB_KmerTable.build seqs w k) query)
    ∧ (∀ x : Nat,
        x ∈ RB_KmerTable.findRepeats (RB_KmerTable.build seqs w k) query
          ↔ ∃ m, m ∈ RB_Minimizer.get_minimizer_list query w k
              ∧ (m.1, x) ∈ (RB_KmerTable.build seqs w k).kmer_table_)
    ∧ ((∀ x : Nat, ¬ ∃ m, m ∈ RB_Minimizer.get_minimizer_list query w k
            ∧ (m.1, x) ∈ (RB_KmerTable.build seqs w k).kmer_table_)
        → RB_KmerTable.findRepeats (RB_KmerTable.build seqs w k) query = []) := by
  have hid : ∀ e ∈ (RB_KmerTable.build seqs w k).kmer_table_,
      e.2 < 2 ^ 32 - 1 := by
    intro e he
    have h1 := build_table_id_lt seqs w k e he
    omega
  have h := findRepeats_spec (RB_KmerTable.build seqs w k) query
    (build_table_pairwiseLt seqs w k) hid
  refine ⟨h.1, fun x => h.2 x, ?_⟩
  intro hnone
  rcases hr : RB_KmerTable.findRepeats (RB_KmerTable.build seqs w k) query
    with _ | ⟨i0, r'⟩
  · rfl
  · exfalso
    have hmem : i0 ∈ RB_KmerTable.findRepeats (RB_KmerTable.build seqs w k)
        query := by
      rw [hr]
      exact List.mem_cons_self _ _
    exact hnone i0 ((h.2 i0).mp hmem)

theorem findRepeats_correct_witness :
    1 ≤ 2 ∧ 1 ≤ 3 ∧ 3 ≤ 32
    ∧ 2 + 3 - 1 ≤ List.length [0, 1, 2, 3, 0, 1, 2, 3]
    ∧ List.length [[0, 1, 2, 3, 0, 1, 2, 3], [3, 3, 3, 3, 0, 1, 2, 3]]
        ≤ 2 ^ 32 - 1
    ∧ (List.Pairwise (· < ·)
        (RB_KmerTable.findRepeats
          (RB_KmerTable.build
            [[0, 1, 2, 3, 0, 1, 2, 3], [3, 3, 3, 3, 0, 1, 2, 3]] 2 3)
          [0, 1, 2, 3, 0, 1, 2, 3])
      ∧ (∀ x : Nat,
          x ∈ RB_KmerTable.findRepeats
              (RB_KmerTable.build
                [[0, 1, 2, 3, 0, 1, 2, 3], [3, 3, 3, 3, 0, 1, 2, 3]] 2 3)
              [0, 1, 2, 3, 0, 1, 2, 3]
            ↔ ∃ m, m ∈ RB_Minimizer.get_minimizer_list
                  [0, 1, 2, 3, 0, 1, 2, 3] 2 3
                ∧ (m.1, x) ∈ (RB_KmerTable.build
                    [[0, 1, 2, 3, 0, 1, 2, 3], [3, 3, 3, 3, 0, 1, 2, 3]]
                    2 3).kmer_table_)
      ∧ ((∀ x : Nat, ¬ ∃ m, m ∈ RB_Minimizer.get_minimizer_list
              [0, 1, 2, 3, 0, 1, 2, 3] 2 3
              ∧ (m.1, x) ∈ (RB_KmerTable.build
                  [[0, 1, 2, 3, 0, 1, 2, 3], [3, 3, 3, 3, 0, 1, 2, 3]]
                  2 3).kmer_table_)
          → RB_KmerTable.findRepeats
              (RB_KmerTable.build
                [[0, 1, 2, 3, 0, 1, 2, 3], [3, 3, 3, 3, 0, 1, 2, 3]] 2 3)
              [0, 1, 2, 3, 0, 1, 2, 3] = [])) :=
  ⟨by decide, by decide, by decide, by decide, by decide,
    findRepeats_correct
      [[0, 1, 2, 3, 0, 1, 2, 3], [3, 3, 3, 3, 0, 1, 2, 3]] 2 3
      [0, 1, 2, 3, 0, 1, 2, 3]
      (by decide) (by decide) (by decide) (by decide) (by decide)⟩

theorem roll_forward_and_domain_witness :
    1 ≤ 3 ∧ 3 ≤ 32 ∧ 0 + 3 < List.length [0, 1, 2, 3]
      ∧ (RB_Minimizer.get_next_kmer (RB_Minimizer.get_kmer [0, 1, 2, 3] 0 3)
            (List.getD [0, 1, 2, 3] (0 + 3) 0) 3
          = RB_Minimizer.get_kmer [0, 1, 2, 3] (0 + 1) 3
        ∧ RB_Minimizer.get_kmer [0, 1, 2, 3] 0 3 < 4 ^ 3
        ∧ ∀ (seq2 : List Nat) (w : Nat), 1 ≤ w →
            ∀ m ∈ RB_Minimizer.get_minimizer_list seq2 w 3, m.1 < 4 ^ 3) :=
  ⟨by decide, by decide, by decide,
    roll_forward_and_domain [0, 1, 2, 3] 0 3 (by decide) (by decide) (by decide)⟩

end RepeatKmer
